import Mathlib

/-!
Verification of the transcript-editing and recording core of the
local-meeting-recorder application.

The frontend editor (`EditorWindow.tsx`, `App.tsx`) is embedded directly:
segment lists, the derived full text, the edit handlers, the save handler
and the time formatter are translated function by function.  The Rust
backend (capture controller, segment merge engine, persistence command)
is not part of the available sources; where a claim depends on it, the
component is modelled from the specification and marked as such in its
doc comment.

Timestamps (seconds) are modelled as rationals, sample counts as naturals.
-/

namespace MeetingRecorder

/-- A transcript segment: `{id, text, start_time, end_time, speaker}`
as declared in `EditorWindow.tsx`. -/
structure TranscriptSegment where
  id : String
  text : String
  start_time : ℚ
  end_time : ℚ
  speaker : String
deriving DecidableEq, Repr

/-- A transcription result: `{segments, full_text, duration}`
as declared in `EditorWindow.tsx`. -/
structure TranscriptionResult where
  segments : List TranscriptSegment
  full_text : String
  duration : ℚ
deriving DecidableEq, Repr

/-- The per-segment entry of the derived full text:
the template string of `segments.map((s) => ...)` in `buildTranscript`. -/
def segEntry (s : TranscriptSegment) : String :=
  "[" ++ s.speaker ++ "] " ++ s.text

/-- JavaScript `Array.prototype.join(sep)`: empty list gives the empty
string, otherwise the entries separated by `sep`. -/
def joinSep (sep : String) : List String → String
  | [] => ""
  | [x] => x
  | x :: y :: xs => x ++ sep ++ joinSep sep (y :: xs)

/-- The derived full text of a segment list, as computed by
`buildTranscript` in `EditorWindow.tsx`:
`segments.map((s) => "[" + s.speaker + "] " + s.text).join("\n")`. -/
def fullTextOf (segs : List TranscriptSegment) : String :=
  joinSep "\n" (segs.map segEntry)

/-- The spec's description of the full text, written independently of the
code: concatenation in order of "[speaker] text" per segment, consecutive
entries separated by a single newline, empty list yielding "". -/
def specFullText : List TranscriptSegment → String
  | [] => ""
  | [s] => segEntry s
  | s :: t :: rest => segEntry s ++ "\n" ++ specFullText (t :: rest)

/-- `buildTranscript` from `EditorWindow.tsx` (lines 124-131): rebuilds the
full text from the current segments but passes the `duration` component
state through unchanged. -/
def buildTranscript (segs : List TranscriptSegment) (duration : ℚ) :
    TranscriptionResult :=
  { segments := segs, full_text := fullTextOf segs, duration := duration }

/-- `handleTextChange` from `EditorWindow.tsx` (lines 105-110): map over the
segments replacing the text of those whose id matches. -/
def handleTextChange (i txt : String) (segs : List TranscriptSegment) :
    List TranscriptSegment :=
  segs.map fun seg => if seg.id = i then { seg with text := txt } else seg

/-- `handleSpeakerChange` from `EditorWindow.tsx` (lines 112-117): map over
the segments replacing the speaker of those whose id matches. -/
def handleSpeakerChange (i spk : String) (segs : List TranscriptSegment) :
    List TranscriptSegment :=
  segs.map fun seg => if seg.id = i then { seg with speaker := spk } else seg

/-- `handleDelete` from `EditorWindow.tsx` (lines 119-122): filter out the
segments whose id matches. -/
def handleDelete (i : String) (segs : List TranscriptSegment) :
    List TranscriptSegment :=
  segs.filter fun seg => seg.id != i

/-- Segments ordered by start time (the Merged Transcript invariant). -/
def startLe (a b : TranscriptSegment) : Prop :=
  a.start_time ≤ b.start_time

instance : DecidableRel startLe := fun a b =>
  inferInstanceAs (Decidable (a.start_time ≤ b.start_time))

/-- A segment list sorted by non-decreasing start time. -/
def sortedByStart (segs : List TranscriptSegment) : Prop :=
  segs.Pairwise startLe

lemma joinSep_eq_spec (segs : List TranscriptSegment) :
    joinSep "\n" (segs.map segEntry) = specFullText segs := by
  match segs with
  | [] => rfl
  | [s] => rfl
  | s :: t :: rest =>
    show segEntry s ++ "\n" ++ joinSep "\n" ((t :: rest).map segEntry) = _
    rw [joinSep_eq_spec (t :: rest)]
    rfl

/-- C3: the derived full_text is exactly the newline-separated
concatenation of "[speaker] text" entries in segment order; the empty
list yields the empty string. -/
theorem buildTranscript_full_text_spec :
    ∀ (segs : List TranscriptSegment) (dur : ℚ),
      (buildTranscript segs dur).full_text = specFullText segs ∧
      (buildTranscript [] dur).full_text = "" := by
  intro segs dur
  exact ⟨joinSep_eq_spec segs, rfl⟩

/-- C5: every editor mutation — text change, speaker relabel, deletion by
id — preserves the sorted-by-start-time invariant of the segment list. -/
theorem edits_preserve_sorted (segs : List TranscriptSegment)
    (i txt spk : String) (hs : sortedByStart segs) :
    sortedByStart (handleTextChange i txt segs) ∧
    sortedByStart (handleSpeakerChange i spk segs) ∧
    sortedByStart (handleDelete i segs) := by
  refine ⟨?_, ?_, ?_⟩
  · refine List.Pairwise.map _ (fun a b hab => ?_) hs
    unfold startLe at *
    split <;> split <;> simpa using hab
  · refine List.Pairwise.map _ (fun a b hab => ?_) hs
    unfold startLe at *
    split <;> split <;> simpa using hab
  · exact List.Pairwise.filter _ hs

/-- Witness for `edits_preserve_sorted` at a concrete sorted two-segment
list. -/
theorem edits_preserve_sorted_witness :
    sortedByStart [⟨"a", "hi", 0, 2, "Me"⟩, ⟨"b", "yo", 3, 5, "Meeting"⟩] ∧
    (sortedByStart (handleTextChange "a" "bye"
        [⟨"a", "hi", 0, 2, "Me"⟩, ⟨"b", "yo", 3, 5, "Meeting"⟩]) ∧
      sortedByStart (handleSpeakerChange "a" "Meeting"
        [⟨"a", "hi", 0, 2, "Me"⟩, ⟨"b", "yo", 3, 5, "Meeting"⟩]) ∧
      sortedByStart (handleDelete "a"
        [⟨"a", "hi", 0, 2, "Me"⟩, ⟨"b", "yo", 3, 5, "Meeting"⟩])) := by
  have h : sortedByStart
      [⟨"a", "hi", 0, 2, "Me"⟩, ⟨"b", "yo", 3, 5, "Meeting"⟩] := by
    unfold sortedByStart startLe
    simp
  exact ⟨h, edits_preserve_sorted _ "a" "bye" "Meeting" h⟩

/-- C8: the text-change operation rewrites only the text field of the
segments whose id matches, the speaker-change operation only the speaker
field; ids, times, the remaining fields, the length and the order of the
list are untouched. -/
theorem edit_operations_frame (segs : List TranscriptSegment)
    (i txt spk : String) :
    (handleTextChange i txt segs).length = segs.length ∧
    (handleSpeakerChange i spk segs).length = segs.length ∧
    (∀ (k : ℕ) (s : TranscriptSegment), segs[k]? = some s →
      ∃ s', (handleTextChange i txt segs)[k]? = some s' ∧
        s'.id = s.id ∧ s'.start_time = s.start_time ∧
        s'.end_time = s.end_time ∧ s'.speaker = s.speaker ∧
        s'.text = (if s.id = i then txt else s.text)) ∧
    (∀ (k : ℕ) (s : TranscriptSegment), segs[k]? = some s →
      ∃ s', (handleSpeakerChange i spk segs)[k]? = some s' ∧
        s'.id = s.id ∧ s'.start_time = s.start_time ∧
        s'.end_time = s.end_time ∧ s'.text = s.text ∧
        s'.speaker = (if s.id = i then spk else s.speaker)) := by
  refine ⟨by simp [handleTextChange], by simp [handleSpeakerChange], ?_, ?_⟩
  · intro k s hk
    refine ⟨if s.id = i then { s with text := txt } else s, ?_, ?_⟩
    · simp [handleTextChange, List.getElem?_map, hk]
    · split <;> simp_all
  · intro k s hk
    refine ⟨if s.id = i then { s with speaker := spk } else s, ?_, ?_⟩
    · simp [handleSpeakerChange, List.getElem?_map, hk]
    · split <;> simp_all

/-- Witness for `edit_operations_frame`: the pointwise clauses applied at
index 0 of a concrete list. -/
theorem edit_operations_frame_witness :
    [(⟨"a", "hi", 0, 2, "Me"⟩ : TranscriptSegment)][0]? =
        some ⟨"a", "hi", 0, 2, "Me"⟩ ∧
      ∃ s', (handleTextChange "a" "bye"
          [⟨"a", "hi", 0, 2, "Me"⟩])[0]? = some s' ∧
        s'.id = "a" ∧ s'.start_time = 0 ∧ s'.end_time = 2 ∧
        s'.speaker = "Me" ∧ s'.text = (if "a" = "a" then "bye" else "hi") := by
  have h := (edit_operations_frame [⟨"a", "hi", 0, 2, "Me"⟩]
    "a" "bye" "Meeting").2.2.1 0 ⟨"a", "hi", 0, 2, "Me"⟩ (by simp)
  exact ⟨by simp, h⟩

/-- Maximum end time across a segment list (0 for the empty list), the
spec's definition of the re-derived total duration of an edited
transcript. -/
def maxEndTime : List TranscriptSegment → ℚ
  | [] => 0
  | s :: rest => rest.foldl (fun m t => max m t.end_time) s.end_time

/-- Modelled from the spec: the backend command `save_edited_transcript`
(src-tauri/src/lib.rs, not among the available sources) persists an edited
Merged Transcript and must re-derive full_text and duration from the
segments rather than trust the caller-supplied derived fields. -/
def save_edited_transcript (t : TranscriptionResult) : TranscriptionResult :=
  { segments := t.segments
    full_text := fullTextOf t.segments
    duration := maxEndTime t.segments }

/-- C1 counterexample: the transcript the editor hands to persistence does
NOT have its duration recomputed.  After deleting the last-ending segment
"b" of a two-segment transcript of duration 10, `buildTranscript` still
reports duration 10 while the max end time of the remaining segments is
5. -/
theorem buildTranscript_stale_duration_cex :
    (buildTranscript
        (handleDelete "b"
          [⟨"a", "hi", 0, 5, "Me"⟩, ⟨"b", "yo", 6, 10, "Meeting"⟩])
        10).duration = 10 ∧
    maxEndTime
        (handleDelete "b"
          [⟨"a", "hi", 0, 5, "Me"⟩, ⟨"b", "yo", 6, 10, "Meeting"⟩]) = 5 ∧
    (10 : ℚ) ≠ 5 := by
  refine ⟨rfl, ?_, by norm_num⟩
  decide

/-- C1 (amended): the editor-side `buildTranscript` rebuilds full_text from
the segments but passes the pre-edit duration through unchanged; the
persistence step itself (modelled from the spec) re-derives both full_text
and duration from the segments, so the persisted duration after deleting a
segment equals the new max end time, not the caller-supplied one. -/
theorem save_edited_transcript_rederives :
    ∀ (segs : List TranscriptSegment) (dur : ℚ) (i : String),
      (buildTranscript segs dur).full_text = fullTextOf segs ∧
      (buildTranscript segs dur).duration = dur ∧
      (save_edited_transcript (buildTranscript segs dur)).segments = segs ∧
      (save_edited_transcript (buildTranscript segs dur)).full_text =
        fullTextOf segs ∧
      (save_edited_transcript (buildTranscript segs dur)).duration =
        maxEndTime segs ∧
      (save_edited_transcript
          (buildTranscript (handleDelete i segs) dur)).duration =
        maxEndTime (handleDelete i segs) := by
  intro segs dur i
  exact ⟨rfl, rfl, rfl, rfl, rfl, rfl⟩

/-- The editor window state used by `handleSave`: the recording directory,
the segment list, the loaded duration, and the dirty/status/saving
flags. -/
structure EditorState where
  recordingDir : String
  segments : List TranscriptSegment
  duration : ℚ
  hasChanges : Bool
  status : String
  saving : Bool
deriving DecidableEq, Repr

/-- `handleSave` from `EditorWindow.tsx` (lines 133-149): bail out when no
recording directory is set, otherwise hand `buildTranscript()` to the
`save_edited_transcript` command.  The backend outcome is a parameter
(`none` = success, `some e` = error message); the returned pair is the
invoked payload (if any) and the state after the handler finishes. -/
def handleSave (st : EditorState) (outcome : Option String) :
    Option TranscriptionResult × EditorState :=
  if st.recordingDir = "" then (none, st)
  else
    let t := buildTranscript st.segments st.duration
    match outcome with
    | none =>
      (some t, { st with hasChanges := false, status := "Saved",
                         saving := false })
    | some e =>
      (some t, { st with status := "Save error: " ++ e, saving := false })

/-- C9: with an empty recording directory the save handler invokes nothing
and leaves the whole editor state — segments, hasChanges, status —
unchanged. -/
theorem handleSave_empty_dir (st : EditorState) (outcome : Option String)
    (h : st.recordingDir = "") :
    handleSave st outcome = (none, st) ∧
    (handleSave st outcome).2.segments = st.segments ∧
    (handleSave st outcome).2.hasChanges = st.hasChanges ∧
    (handleSave st outcome).2.status = st.status := by
  unfold handleSave
  rw [if_pos h]
  exact ⟨rfl, rfl, rfl, rfl⟩

/-- Witness for `handleSave_empty_dir` at a concrete editor state. -/
theorem handleSave_empty_dir_witness :
    (EditorState.mk "" [⟨"a", "hi", 0, 5, "Me"⟩] 5 true "Loaded"
        false).recordingDir = "" ∧
    handleSave
        (EditorState.mk "" [⟨"a", "hi", 0, 5, "Me"⟩] 5 true "Loaded" false)
        none =
      (none,
        EditorState.mk "" [⟨"a", "hi", 0, 5, "Me"⟩] 5 true "Loaded"
          false) := by
  exact ⟨rfl,
    (handleSave_empty_dir
      (EditorState.mk "" [⟨"a", "hi", 0, 5, "Me"⟩] 5 true "Loaded" false)
      none rfl).1⟩

/-- Modelled from the spec: the Segment Merge Engine's classic two-way
merge of two pre-sorted sequences (src-tauri/src/transcribe.rs, not among
the available sources), taking from the first list on an exact start-time
tie.  Stated generically over a Boolean comparison. -/
def mergeBy (le : α → α → Bool) : List α → List α → List α
  | [], ys => ys
  | xs, [] => xs
  | x :: xs, y :: ys =>
    if le x y then x :: mergeBy le xs (y :: ys)
    else y :: mergeBy le (x :: xs) ys
termination_by xs ys => xs.length + ys.length

lemma mergeBy_nil_left (le : α → α → Bool) (ys : List α) :
    mergeBy le [] ys = ys := by
  cases ys <;> simp [mergeBy]

lemma mergeBy_nil_right (le : α → α → Bool) (xs : List α) :
    mergeBy le xs [] = xs := by
  cases xs <;> simp [mergeBy]

lemma mergeBy_perm (le : α → α → Bool) (xs ys : List α) :
    (mergeBy le xs ys).Perm (xs ++ ys) := by
  induction xs generalizing ys with
  | nil => simp [mergeBy_nil_left]
  | cons x xs ih =>
    induction ys with
    | nil => simp [mergeBy_nil_right]
    | cons y ys ihy =>
      cases h : le x y with
      | true =>
        simp only [mergeBy, h, if_true]
        exact (ih (y :: ys)).cons x
      | false =>
        simp only [mergeBy, h, Bool.false_eq_true, if_false]
        exact (ihy.cons y).trans List.perm_middle.symm

lemma mergeBy_pairwise {le : α → α → Bool} {P : α → α → Prop}
    (htrans : ∀ a b c, P a b → P b c → P a c)
    (hT : ∀ a b, le a b = true → P a b)
    (hF : ∀ a b, le a b = false → P b a)
    (xs ys : List α) (hxs : xs.Pairwise P) (hys : ys.Pairwise P) :
    (mergeBy le xs ys).Pairwise P := by
  induction xs generalizing ys with
  | nil => rw [mergeBy_nil_left]; exact hys
  | cons x xs ih =>
    induction ys with
    | nil => rw [mergeBy_nil_right]; exact hxs
    | cons y ys ihy =>
      rw [List.pairwise_cons] at hxs hys
      cases h : le x y with
      | true =>
        simp only [mergeBy, h, if_true]
        rw [List.pairwise_cons]
        refine ⟨fun z hz => ?_, ih _ hxs.2 (List.pairwise_cons.mpr hys)⟩
        have hz' : z ∈ xs ++ y :: ys :=
          (mergeBy_perm le xs (y :: ys)).subset hz
        rcases List.mem_append.mp hz' with hzx | hzy
        · exact hxs.1 z hzx
        · rcases List.mem_cons.mp hzy with rfl | hzys
          · exact hT x z h
          · exact htrans x y z (hT x y h) (hys.1 z hzys)
      | false =>
        simp only [mergeBy, h, Bool.false_eq_true, if_false]
        rw [List.pairwise_cons]
        refine ⟨fun z hz => ?_, ihy hys.2⟩
        have hz' : z ∈ (x :: xs) ++ ys :=
          (mergeBy_perm le (x :: xs) ys).subset hz
        rcases List.mem_append.mp hz' with hzx | hzy
        · rcases List.mem_cons.mp hzx with rfl | hzxs
          · exact hF z y h
          · exact htrans y x z (hF x y h) (hxs.1 z hzxs)
        · exact hys.1 z hzy

/-- Boolean start-time comparison used by the merge on plain segments. -/
def segLe (a b : TranscriptSegment) : Bool :=
  decide (a.start_time ≤ b.start_time)

/-- Modelled from the spec: the Segment Merge Engine applied to the two
per-source segment lists, comparing by start time and taking from the
first input on an exact tie. -/
def mergeSegments : List TranscriptSegment → List TranscriptSegment →
    List TranscriptSegment :=
  mergeBy segLe

/-- A segment tagged with the index of the source list it came from
(0 = first input, 1 = second input), used to state merge stability. -/
abbrev TaggedSeg := TranscriptSegment × ℕ

/-- The merge comparison lifted to tagged segments: tags are ignored,
exactly as the engine only compares timestamps. -/
def tagLe (p q : TaggedSeg) : Bool :=
  decide (p.1.start_time ≤ q.1.start_time)

/-- Stability order on tagged segments: strictly earlier start time, or an
exact start-time tie resolved by source order (first input before
second). -/
def lexLe (p q : TaggedSeg) : Prop :=
  p.1.start_time < q.1.start_time ∨
    (p.1.start_time = q.1.start_time ∧ p.2 ≤ q.2)

lemma mergeBy_map_fst (ta tb : List TaggedSeg) :
    (mergeBy tagLe ta tb).map Prod.fst =
      mergeSegments (ta.map Prod.fst) (tb.map Prod.fst) := by
  induction ta generalizing tb with
  | nil => simp [mergeBy_nil_left, mergeSegments]
  | cons p ta ih =>
    induction tb with
    | nil => simp [mergeBy_nil_right, mergeSegments]
    | cons q tb ihb =>
      have hle : tagLe p q = segLe p.1 q.1 := rfl
      cases h : tagLe p q with
      | true =>
        simp only [mergeBy, h, if_true, List.map_cons]
        rw [ih (q :: tb)]
        simp only [mergeSegments, List.map_cons, mergeBy, ← hle, h, if_true]
      | false =>
        simp only [mergeBy, h, Bool.false_eq_true, if_false, List.map_cons]
        rw [ihb]
        simp only [mergeSegments, List.map_cons, mergeBy, ← hle, h,
          Bool.false_eq_true, if_false]

lemma lexLe_of {p q : TaggedSeg} (h1 : p.1.start_time ≤ q.1.start_time)
    (h2 : p.2 ≤ q.2) : lexLe p q := by
  rcases lt_or_eq_of_le h1 with h | h
  · exact Or.inl h
  · exact Or.inr ⟨h, h2⟩

lemma pairwise_lexLe_of_const_tag (t : ℕ) (l : List TaggedSeg)
    (htag : ∀ p ∈ l, p.2 = t)
    (hs : l.Pairwise fun p q => p.1.start_time ≤ q.1.start_time) :
    l.Pairwise lexLe := by
  refine hs.imp_of_mem ?_
  intro a b ha hb h
  exact lexLe_of h (by rw [htag a ha, htag b hb])

lemma mergeTagged_stable : ∀ ta tb : List TaggedSeg,
    (∀ p ∈ ta, p.2 = 0) → (∀ p ∈ tb, p.2 = 1) →
    (ta.Pairwise fun p q => p.1.start_time ≤ q.1.start_time) →
    (tb.Pairwise fun p q => p.1.start_time ≤ q.1.start_time) →
    (mergeBy tagLe ta tb).Pairwise lexLe := by
  intro ta
  induction ta with
  | nil =>
    intro tb _ htb _ hsb
    rw [mergeBy_nil_left]
    exact pairwise_lexLe_of_const_tag 1 tb htb hsb
  | cons p ta ih =>
    intro tb
    induction tb with
    | nil =>
      intro hta _ hsa _
      rw [mergeBy_nil_right]
      exact pairwise_lexLe_of_const_tag 0 _ hta hsa
    | cons q tb ihb =>
      intro hta htb hsa hsb
      rw [List.pairwise_cons] at hsa hsb
      have hp0 : p.2 = 0 := hta p (List.mem_cons_self p ta)
      have hq1 : q.2 = 1 := htb q (List.mem_cons_self q tb)
      cases h : tagLe p q with
      | true =>
        have hpq : p.1.start_time ≤ q.1.start_time := by
          simpa [tagLe] using h
        simp only [mergeBy, h, if_true]
        rw [List.pairwise_cons]
        refine ⟨fun z hz => ?_,
          ih (q :: tb) (fun r hr => hta r (List.mem_cons_of_mem _ hr)) htb
            hsa.2 (List.pairwise_cons.mpr hsb)⟩
        have hz' : z ∈ ta ++ q :: tb :=
          (mergeBy_perm tagLe ta (q :: tb)).subset hz
        rcases List.mem_append.mp hz' with hzt | hzq
        · exact lexLe_of (hsa.1 z hzt)
            (by rw [hp0, hta z (List.mem_cons_of_mem _ hzt)])
        · rcases List.mem_cons.mp hzq with rfl | hztb
          · exact lexLe_of hpq (by rw [hp0, hq1]; exact Nat.zero_le 1)
          · exact lexLe_of (le_trans hpq (hsb.1 z hztb))
              (by rw [hp0, htb z (List.mem_cons_of_mem _ hztb)]
                  exact Nat.zero_le 1)
      | false =>
        have hqp : q.1.start_time < p.1.start_time := by
          have h' : ¬ p.1.start_time ≤ q.1.start_time := by
            simpa [tagLe] using h
          exact not_le.mp h'
        simp only [mergeBy, h, Bool.false_eq_true, if_false]
        rw [List.pairwise_cons]
        refine ⟨fun z hz => ?_,
          ihb hta (fun r hr => htb r (List.mem_cons_of_mem _ hr))
            (List.pairwise_cons.mpr hsa) hsb.2⟩
        have hz' : z ∈ (p :: ta) ++ tb :=
          (mergeBy_perm tagLe (p :: ta) tb).subset hz
        rcases List.mem_append.mp hz' with hzp | hztb
        · rcases List.mem_cons.mp hzp with rfl | hzta
          · exact Or.inl hqp
          · exact Or.inl (lt_of_lt_of_le hqp (hsa.1 z hzta))
        · exact lexLe_of (hsb.1 z hztb)
            (by rw [hq1, htb z (List.mem_cons_of_mem _ hztb)])

/-- C2: merging two sorted, homogeneously speaker-labeled segment lists
yields a list sorted by non-decreasing start time, containing exactly the
segments of both inputs (a permutation of their concatenation), and the
tagged merge — identical comparison, elementwise first projection equal to
the untagged merge — is sorted for the stability order that places the
first input before the second on an exact start-time tie. -/
theorem mergeSegments_sorted_stable (A B : List TranscriptSegment)
    (sA sB : String) (hA : sortedByStart A) (hB : sortedByStart B)
    (hsA : ∀ s ∈ A, s.speaker = sA) (hsB : ∀ s ∈ B, s.speaker = sB) :
    sortedByStart (mergeSegments A B) ∧
    (mergeSegments A B).Perm (A ++ B) ∧
    (mergeBy tagLe (A.map fun s => (s, 0)) (B.map fun s => (s, 1))).map
        Prod.fst = mergeSegments A B ∧
    (mergeBy tagLe (A.map fun s => (s, 0))
        (B.map fun s => (s, 1))).Pairwise lexLe := by
  refine ⟨?_, mergeBy_perm segLe A B, ?_, ?_⟩
  · exact @mergeBy_pairwise _ segLe startLe
      (fun a b c hab hbc => le_trans hab hbc)
      (fun a b h => of_decide_eq_true h)
      (fun a b h => le_of_lt (not_le.mp (of_decide_eq_false h)))
      A B hA hB
  · rw [mergeBy_map_fst, List.map_map, List.map_map,
      @List.map_id'' _ (Prod.fst ∘ fun s => (s, 0)) (fun x => rfl) A,
      @List.map_id'' _ (Prod.fst ∘ fun s => (s, 1)) (fun x => rfl) B]
  · refine mergeTagged_stable _ _ (by simp) (by simp) ?_ ?_
    · exact List.pairwise_map.mpr hA
    · exact List.pairwise_map.mpr hB

/-- Witness for `mergeSegments_sorted_stable` at the spec's own example:
A = [(0,"hi",X),(5,"there",X)], B = [(2,"hey",Y)]. -/
theorem mergeSegments_sorted_stable_witness :
    (sortedByStart [⟨"a1", "hi", 0, 1, "X"⟩, ⟨"a2", "there", 5, 6, "X"⟩] ∧
      sortedByStart [⟨"b1", "hey", 2, 3, "Y"⟩] ∧
      (∀ s ∈ [(⟨"a1", "hi", 0, 1, "X"⟩ : TranscriptSegment),
        ⟨"a2", "there", 5, 6, "X"⟩], s.speaker = "X") ∧
      (∀ s ∈ [(⟨"b1", "hey", 2, 3, "Y"⟩ : TranscriptSegment)],
        s.speaker = "Y")) ∧
    sortedByStart (mergeSegments
      [⟨"a1", "hi", 0, 1, "X"⟩, ⟨"a2", "there", 5, 6, "X"⟩]
      [⟨"b1", "hey", 2, 3, "Y"⟩]) := by
  have h1 : sortedByStart
      [⟨"a1", "hi", 0, 1, "X"⟩, ⟨"a2", "there", 5, 6, "X"⟩] := by
    unfold sortedByStart startLe
    simp
  have h2 : sortedByStart [(⟨"b1", "hey", 2, 3, "Y"⟩ : TranscriptSegment)] := by
    unfold sortedByStart startLe
    simp
  have h3 : ∀ s ∈ [(⟨"a1", "hi", 0, 1, "X"⟩ : TranscriptSegment),
      ⟨"a2", "there", 5, 6, "X"⟩], s.speaker = "X" := by decide
  have h4 : ∀ s ∈ [(⟨"b1", "hey", 2, 3, "Y"⟩ : TranscriptSegment)],
      s.speaker = "Y" := by decide
  exact ⟨⟨h1, h2, h3, h4⟩,
    (mergeSegments_sorted_stable _ _ "X" "Y" h1 h2 h3 h4).1⟩

/-- Modelled from the spec: the merged transcript's total duration — the
max end time across all segments, or the longer of the two source
recordings if the segment list is empty. -/
def mergedDuration (segs : List TranscriptSegment) (durA durB : ℚ) : ℚ :=
  if segs.isEmpty then max durA durB else maxEndTime segs

/-- Modelled from the spec: the full Segment Merge Engine output — merged
segments plus re-derived full text and total duration. -/
def mergeTranscripts (A B : List TranscriptSegment) (durA durB : ℚ) :
    TranscriptionResult :=
  { segments := mergeSegments A B
    full_text := fullTextOf (mergeSegments A B)
    duration := mergedDuration (mergeSegments A B) durA durB }

/-- C4: merging a non-empty sorted list with an empty list, on either
side, returns that list unchanged in order and content, while the full
text and the duration of the result are still derived from that list (the
duration is its max end time, not a passed-through source duration). -/
theorem mergeTranscripts_empty_side (L : List TranscriptSegment)
    (dA dB : ℚ) (hne : L ≠ []) (hs : sortedByStart L) :
    mergeTranscripts L [] dA dB =
      { segments := L, full_text := fullTextOf L,
        duration := maxEndTime L } ∧
    mergeTranscripts [] L dA dB =
      { segments := L, full_text := fullTextOf L,
        duration := maxEndTime L } := by
  have hLnil : mergeSegments L [] = L := mergeBy_nil_right segLe L
  have hnilL : mergeSegments [] L = L := mergeBy_nil_left segLe L
  have hemp : L.isEmpty = false := by
    cases L with
    | nil => exact absurd rfl hne
    | cons a l => rfl
  constructor
  · unfold mergeTranscripts mergedDuration
    rw [hLnil, hemp]
    rfl
  · unfold mergeTranscripts mergedDuration
    rw [hnilL, hemp]
    rfl

/-- Witness for `mergeTranscripts_empty_side` at a concrete one-segment
list. -/
theorem mergeTranscripts_empty_side_witness :
    ([(⟨"a", "hi", 0, 5, "Me"⟩ : TranscriptSegment)] ≠ [] ∧
      sortedByStart [⟨"a", "hi", 0, 5, "Me"⟩]) ∧
    mergeTranscripts [⟨"a", "hi", 0, 5, "Me"⟩] [] 9 11 =
      { segments := [⟨"a", "hi", 0, 5, "Me"⟩],
        full_text := fullTextOf [⟨"a", "hi", 0, 5, "Me"⟩],
        duration := maxEndTime [⟨"a", "hi", 0, 5, "Me"⟩] } := by
  have h1 : [(⟨"a", "hi", 0, 5, "Me"⟩ : TranscriptSegment)] ≠ [] := by
    simp
  have h2 : sortedByStart [(⟨"a", "hi", 0, 5, "Me"⟩ : TranscriptSegment)] := by
    unfold sortedByStart
    simp
  exact ⟨⟨h1, h2⟩, (mergeTranscripts_empty_side _ 9 11 h1 h2).1⟩

/-- The capture-controller lifecycle states of the spec:
Idle → Recording → Stopping → Idle, or Recording → Stopping → Failed →
Idle on error. -/
inductive CtrlState where
  | Idle
  | Recording
  | Stopping
  | Failed
deriving DecidableEq, Repr

/-- `RecordingStats` as declared in `App.tsx`: duration in seconds and the
per-stream sample counts. -/
structure RecordingStats where
  duration_secs : ℚ
  system_samples_written : ℕ
  mic_samples_written : ℕ
deriving DecidableEq, Repr

/-- The capture controller's observable state: lifecycle state plus the
live session counters. -/
structure Controller where
  state : CtrlState
  elapsed : ℚ
  systemSamples : ℕ
  micSamples : ℕ
deriving DecidableEq, Repr

/-- Modelled from the spec: `get_recording_stats` (backend command, not
among the available sources) returns a point-in-time snapshot of the live
counters while `Recording` and is absent otherwise (in particular when
idle). -/
def get_recording_stats (c : Controller) : Option RecordingStats :=
  if c.state = CtrlState.Recording then
    some ⟨c.elapsed, c.systemSamples, c.micSamples⟩
  else none

/-- The errors a recording command can be rejected with. -/
inductive RecError where
  | alreadyRecording
  | deviceUnavailable
  | permissionDenied
  | invalidState
deriving DecidableEq, Repr

/-- Modelled from the spec: `start_recording` (backend command, not among
the available sources) is rejected with an "already recording" error when
not `Idle`, leaving the state untouched; otherwise it acquires the devices
(outcome abstracted by `acquireOk`) and either transitions to `Recording`
or rolls back to `Idle` with a device error. -/
def start_recording (c : Controller) (acquireOk : Bool) :
    Option RecError × Controller :=
  if c.state ≠ CtrlState.Idle then (some RecError.alreadyRecording, c)
  else if acquireOk then
    (none, { c with state := CtrlState.Recording })
  else (some RecError.deviceUnavailable, c)

/-- Modelled from the spec: `stop_recording` (backend command, not among
the available sources) is rejected with an invalid-state error when not
`Recording`, leaving the state untouched; otherwise it drains, flushes and
returns to `Idle`. -/
def stop_recording (c : Controller) : Option RecError × Controller :=
  if c.state ≠ CtrlState.Recording then (some RecError.invalidState, c)
  else (none, { c with state := CtrlState.Idle })

/-- One tick of the stats-polling effect in `App.tsx` (lines 383-423): a
present snapshot updates the elapsed time, an absent one leaves it
unchanged — the absent result is handled as a valid outcome, not an
error. -/
def pollTick (stats : Option RecordingStats) (elapsed : ℚ) : ℚ :=
  match stats with
  | some s => s.duration_secs
  | none => elapsed

/-- C6: `get_recording_stats` is absent whenever the controller is idle,
a returned snapshot is possible only while `Recording` and then reports
exactly the live counters, and the polling caller treats the absent
result as a valid outcome, leaving its elapsed-time state unchanged. -/
theorem get_recording_stats_spec (c : Controller) (e : ℚ)
    (hidle : c.state = CtrlState.Idle) :
    get_recording_stats c = none ∧
    (∀ c' : Controller, ∀ r : RecordingStats,
      get_recording_stats c' = some r →
        c'.state = CtrlState.Recording ∧
        r = ⟨c'.elapsed, c'.systemSamples, c'.micSamples⟩) ∧
    pollTick none e = e := by
  refine ⟨?_, ?_, rfl⟩
  · unfold get_recording_stats
    rw [hidle]
    rfl
  · intro c' r h
    unfold get_recording_stats at h
    by_cases hc : c'.state = CtrlState.Recording
    · rw [if_pos hc] at h
      exact ⟨hc, (Option.some.inj h).symm⟩
    · rw [if_neg hc] at h
      exact absurd h (by simp)

/-- Witness for `get_recording_stats_spec` at a concrete idle
controller. -/
theorem get_recording_stats_spec_witness :
    (Controller.mk CtrlState.Idle 0 0 0).state = CtrlState.Idle ∧
    get_recording_stats (Controller.mk CtrlState.Idle 0 0 0) = none := by
  exact ⟨rfl, (get_recording_stats_spec (Controller.mk CtrlState.Idle 0 0 0)
    7 rfl).1⟩

/-- C7: `start_recording` outside `Idle` fails with the
already-recording error and `stop_recording` outside `Recording` fails
with the invalid-state error; in both cases the controller state is
returned unchanged by the rejected call. -/
theorem state_errors_rejected (c c' : Controller) (acquireOk : Bool)
    (hs : c.state ≠ CtrlState.Idle) (ht : c'.state ≠ CtrlState.Recording) :
    start_recording c acquireOk = (some RecError.alreadyRecording, c) ∧
    stop_recording c' = (some RecError.invalidState, c') := by
  constructor
  · unfold start_recording
    rw [if_pos hs]
  · unfold stop_recording
    rw [if_pos ht]

/-- Witness for `state_errors_rejected`: a recording controller rejects
`start_recording`, an idle one rejects `stop_recording`. -/
theorem state_errors_rejected_witness :
    ((Controller.mk CtrlState.Recording 3 10 20).state ≠ CtrlState.Idle ∧
      (Controller.mk CtrlState.Idle 0 0 0).state ≠ CtrlState.Recording) ∧
    start_recording (Controller.mk CtrlState.Recording 3 10 20) true =
      (some RecError.alreadyRecording,
        Controller.mk CtrlState.Recording 3 10 20) ∧
    stop_recording (Controller.mk CtrlState.Idle 0 0 0) =
      (some RecError.invalidState, Controller.mk CtrlState.Idle 0 0 0) := by
  exact ⟨⟨by decide, by decide⟩,
    state_errors_rejected (Controller.mk CtrlState.Recording 3 10 20)
      (Controller.mk CtrlState.Idle 0 0 0) true (by decide) (by decide)⟩

/-- JavaScript `Math.trunc`: rounds toward zero. -/
def ratTrunc (q : ℚ) : ℤ :=
  if 0 ≤ q then ⌊q⌋ else ⌈q⌉

/-- The JavaScript `%` operator on numbers: the truncated-division
remainder `a - b * trunc(a / b)`. -/
def jsRem (a b : ℚ) : ℚ :=
  a - b * ((ratTrunc (a / b) : ℤ) : ℚ)

/-- JavaScript `str.padStart(2, "0")`: left-pad with zeros to length 2. -/
def padStart2 (s : String) : String :=
  String.mk (List.replicate (2 - s.length) '0') ++ s

/-- `formatTime` from `EditorWindow.tsx` (lines 32-36):
minutes are `Math.floor(seconds / 60)`, seconds are
`Math.floor(seconds % 60)` zero-padded to two digits. -/
def formatTime (seconds : ℚ) : String :=
  toString ⌊seconds / 60⌋ ++ ":" ++ padStart2 (toString ⌊jsRem seconds 60⌋)

lemma floor_div_sixty (s : ℚ) : ⌊s / 60⌋ = ⌊s⌋ / 60 := by
  have h60 : (0 : ℚ) < 60 := by norm_num
  have h1 : (60 : ℤ) * (⌊s⌋ / 60) ≤ ⌊s⌋ := by omega
  have h2 : ⌊s⌋ + 1 ≤ 60 * (⌊s⌋ / 60) + 60 := by omega
  refine Int.floor_eq_iff.mpr ⟨?_, ?_⟩
  · rw [le_div_iff h60]
    calc ((⌊s⌋ / 60 : ℤ) : ℚ) * 60 = ((60 * (⌊s⌋ / 60) : ℤ) : ℚ) := by
          push_cast
          ring
    _ ≤ ((⌊s⌋ : ℤ) : ℚ) := by exact_mod_cast h1
    _ ≤ s := Int.floor_le s
  · rw [div_lt_iff h60]
    calc s < ((⌊s⌋ : ℤ) : ℚ) + 1 := Int.lt_floor_add_one s
    _ ≤ ((60 * (⌊s⌋ / 60) + 60 : ℤ) : ℚ) := by exact_mod_cast h2
    _ = (((⌊s⌋ / 60 : ℤ) : ℚ) + 1) * 60 := by
          push_cast
          ring

lemma floor_jsRem_sixty (s : ℚ) (hs : 0 ≤ s) : ⌊jsRem s 60⌋ = ⌊s⌋ % 60 := by
  have htr : ratTrunc (s / 60) = ⌊s / 60⌋ := by
    unfold ratTrunc
    rw [if_pos (div_nonneg hs (by norm_num))]
  unfold jsRem
  rw [htr, floor_div_sixty]
  have hc : s - 60 * ((⌊s⌋ / 60 : ℤ) : ℚ) = s - ((60 * (⌊s⌋ / 60) : ℤ) : ℚ) := by
    push_cast
    ring
  rw [hc, Int.floor_sub_int]
  omega

/-- C10: for non-negative seconds, `formatTime` produces
`floor(s/60) ++ ":" ++` the two-digit zero-padded `floor(s) mod 60`;
fractional seconds are floored and minutes are not wrapped into hours. -/
theorem formatTime_spec (s : ℚ) (hs : 0 ≤ s) :
    formatTime s =
      toString ⌊s / 60⌋ ++ ":" ++ padStart2 (toString (⌊s⌋ % 60)) ∧
    formatTime 3600 = "60:00" ∧
    formatTime (131 / 2) = "1:05" := by
  refine ⟨?_, ?_, ?_⟩
  · unfold formatTime
    rw [floor_jsRem_sixty s hs]
  · have hf1 : ⌊(3600 : ℚ) / 60⌋ = 60 := by
      rw [show ((3600 : ℚ) / 60) = ((60 : ℤ) : ℚ) by norm_num,
        Int.floor_intCast]
    have hr1 : jsRem 3600 60 = 0 := by
      unfold jsRem ratTrunc
      rw [if_pos (by norm_num : (0 : ℚ) ≤ 3600 / 60), hf1]
      norm_num
    unfold formatTime
    rw [hf1, hr1, Int.floor_zero]
    decide
  · have hf1 : ⌊(131 / 2 : ℚ) / 60⌋ = 1 :=
      Int.floor_eq_iff.mpr ⟨by norm_num, by norm_num⟩
    have hr1 : jsRem (131 / 2) 60 = 11 / 2 := by
      unfold jsRem ratTrunc
      rw [if_pos (by norm_num : (0 : ℚ) ≤ 131 / 2 / 60), hf1]
      norm_num
    have hf2 : ⌊(11 / 2 : ℚ)⌋ = 5 :=
      Int.floor_eq_iff.mpr ⟨by norm_num, by norm_num⟩
    unfold formatTime
    rw [hf1, hr1, hf2]
    decide

/-- Witness for `formatTime_spec` at 65.5 seconds. -/
theorem formatTime_spec_witness :
    (0 : ℚ) ≤ 131 / 2 ∧
    formatTime (131 / 2) =
      toString ⌊(131 / 2 : ℚ) / 60⌋ ++ ":" ++
        padStart2 (toString (⌊(131 / 2 : ℚ)⌋ % 60)) := by
  exact ⟨by norm_num, (formatTime_spec (131 / 2) (by norm_num)).1⟩

end MeetingRecorder
